import Mathlib

/-!
# Verification of the CopyQ item filtering and search engine

This file is a shallow embedding of `src/gui/filterlineedit.cpp`: the
pattern compiler (`FilterLineEdit::filter`), the compiled filter value
(`ItemFilterRegExp` with its `matchesAll`, `matchesNone`, `matches`,
`highlight` and `search` operations), the debounce scheduler
(`onTextChanged` / `focusOutEvent` and the single-shot 200 ms timer), and
the legacy filter-history migration (`restoreOldFilterHistory`).

Strings are modelled as `List Char`.  The regular-expression engine used
by the source (`QRegularExpression`, an external library) is modelled by a
small regex AST (`Regex`), a Brzozowski-derivative matcher (`Regex.rmatch`)
proved correct against an inductive language semantics (`Regex.Matches`),
and a pattern-string compiler (`parseSeq`) covering the core PCRE subset
the source generates and exercises: literal characters, backslash escapes
of single characters, the `.` wildcard (which, as in the engine's
default mode, matches any character except newline), and the `*`, `+`,
`?` quantifiers.
Constructs outside this subset (classes, groups, alternation, anchors) are
treated as unparseable by the model.
-/

/-- Regular-expression abstract syntax: empty language, empty string,
any single character, any character except newline (the engine's
default `.`), a literal character, concatenation, alternation and
Kleene star. -/
inductive Regex where
  | zero : Regex
  | eps : Regex
  | any : Regex
  | dot : Regex
  | lit (c : Char) : Regex
  | cat (a b : Regex) : Regex
  | alt (a b : Regex) : Regex
  | star (a : Regex) : Regex
  deriving DecidableEq, Repr

namespace Regex

/-- Does the regex accept the empty string? -/
def nullable : Regex → Bool
  | zero => false
  | eps => true
  | any => false
  | dot => false
  | lit _ => false
  | cat a b => nullable a && nullable b
  | alt a b => nullable a || nullable b
  | star _ => true

/-- Brzozowski derivative with respect to a character. -/
def deriv (c : Char) : Regex → Regex
  | zero => zero
  | eps => zero
  | any => eps
  | dot => if c = '\n' then zero else eps
  | lit d => if d = c then eps else zero
  | cat a b =>
      if nullable a then alt (cat (deriv c a) b) (deriv c b)
      else cat (deriv c a) b
  | alt a b => alt (deriv c a) (deriv c b)
  | star a => cat (deriv c a) (star a)

/-- Derivative-based matcher: does the regex match the whole string? -/
def rmatch : Regex → List Char → Bool
  | r, [] => nullable r
  | r, c :: s => rmatch (deriv c r) s

/-- Language semantics of a regex, as an inductive matching relation.
The star constructor consumes a nonempty first chunk; this generates the
same language and keeps derivative lemmas direct. -/
inductive Matches : Regex → List Char → Prop where
  | eps : Matches .eps []
  | any (c : Char) : Matches .any [c]
  | dot {c : Char} : c ≠ '\n' → Matches .dot [c]
  | lit (c : Char) : Matches (.lit c) [c]
  | cat {a b : Regex} {s₁ s₂ : List Char} :
      Matches a s₁ → Matches b s₂ → Matches (.cat a b) (s₁ ++ s₂)
  | altL {a b : Regex} {s : List Char} : Matches a s → Matches (.alt a b) s
  | altR {a b : Regex} {s : List Char} : Matches b s → Matches (.alt a b) s
  | starNil {a : Regex} : Matches (.star a) []
  | starCons {a : Regex} {c : Char} {s₁ s₂ : List Char} :
      Matches a (c :: s₁) → Matches (.star a) s₂ →
      Matches (.star a) (c :: s₁ ++ s₂)

theorem not_matches_zero {s : List Char} : ¬ Matches .zero s := by
  intro h; cases h

theorem matches_eps_iff {s : List Char} : Matches .eps s ↔ s = [] := by
  constructor
  · intro h; cases h; rfl
  · rintro rfl; exact .eps

theorem matches_any_iff {s : List Char} : Matches .any s ↔ ∃ c, s = [c] := by
  constructor
  · intro h; cases h with | any c => exact ⟨c, rfl⟩
  · rintro ⟨c, rfl⟩; exact .any c

theorem matches_dot_iff {s : List Char} :
    Matches .dot s ↔ ∃ c, s = [c] ∧ c ≠ '\n' := by
  constructor
  · intro h
    cases h with
    | dot hne => exact ⟨_, rfl, hne⟩
  · rintro ⟨c, rfl, hne⟩
    exact .dot hne

theorem matches_lit_iff {c : Char} {s : List Char} :
    Matches (.lit c) s ↔ s = [c] := by
  constructor
  · intro h; cases h; rfl
  · rintro rfl; exact .lit c

theorem matches_cat_iff {a b : Regex} {s : List Char} :
    Matches (.cat a b) s ↔ ∃ s₁ s₂, s = s₁ ++ s₂ ∧ Matches a s₁ ∧ Matches b s₂ := by
  constructor
  · intro h
    cases h with
    | cat h₁ h₂ => exact ⟨_, _, rfl, h₁, h₂⟩
  · rintro ⟨s₁, s₂, rfl, h₁, h₂⟩
    exact .cat h₁ h₂

theorem matches_alt_iff {a b : Regex} {s : List Char} :
    Matches (.alt a b) s ↔ Matches a s ∨ Matches b s := by
  constructor
  · intro h
    cases h with
    | altL h => exact .inl h
    | altR h => exact .inr h
  · rintro (h | h)
    · exact .altL h
    · exact .altR h

theorem nullable_iff {r : Regex} : nullable r = true ↔ Matches r [] := by
  induction r with
  | zero => simp [nullable]; exact not_matches_zero
  | eps => simp [nullable]; exact .eps
  | any =>
    simp [nullable]
    intro h; cases h
  | dot =>
    simp [nullable]
    intro h; cases h
  | lit c =>
    simp [nullable]
    intro h; cases h
  | cat a b iha ihb =>
    simp only [nullable, Bool.and_eq_true, iha, ihb]
    constructor
    · rintro ⟨h₁, h₂⟩
      exact Matches.cat h₁ h₂
    · intro h
      rcases matches_cat_iff.mp h with ⟨s₁, s₂, hs, h₁, h₂⟩
      rcases List.append_eq_nil.mp hs.symm with ⟨rfl, rfl⟩
      exact ⟨h₁, h₂⟩
  | alt a b iha ihb =>
    simp only [nullable, Bool.or_eq_true, iha, ihb]
    exact matches_alt_iff.symm
  | star a ih =>
    simp [nullable]
    exact .starNil

theorem matches_deriv {c : Char} {r : Regex} {s : List Char} :
    Matches (deriv c r) s ↔ Matches r (c :: s) := by
  induction r generalizing s with
  | zero =>
    simp only [deriv]
    constructor
    · intro h; exact absurd h not_matches_zero
    · intro h; cases h
  | eps =>
    simp only [deriv]
    constructor
    · intro h; exact absurd h not_matches_zero
    · intro h; cases h
  | any =>
    simp only [deriv, matches_eps_iff, matches_any_iff]
    constructor
    · rintro rfl; exact ⟨c, rfl⟩
    · rintro ⟨d, hd⟩; cases hd; rfl
  | dot =>
    simp only [deriv]
    by_cases hc : c = '\n'
    · subst hc
      rw [if_pos rfl]
      constructor
      · intro h; exact absurd h not_matches_zero
      · intro h
        rcases matches_dot_iff.mp h with ⟨d, hd, hne⟩
        injection hd with h1 _
        exact absurd h1.symm hne
    · rw [if_neg hc]
      constructor
      · intro h
        rw [matches_eps_iff] at h
        subst h
        exact Matches.dot hc
      · intro h
        rcases matches_dot_iff.mp h with ⟨d, hd, _⟩
        injection hd with _ h2
        rw [matches_eps_iff]
        exact h2
  | lit d =>
    simp only [deriv]
    by_cases hdc : d = c
    · subst hdc
      rw [if_pos rfl]
      constructor
      · intro h
        rw [matches_eps_iff] at h
        subst h
        exact .lit d
      · intro h
        rw [matches_lit_iff, List.cons.injEq] at h
        rw [matches_eps_iff]
        exact h.2
    · rw [if_neg hdc]
      constructor
      · intro h; exact absurd h not_matches_zero
      · intro h
        rw [matches_lit_iff, List.cons.injEq] at h
        exact absurd h.1.symm hdc
  | cat a b iha ihb =>
    simp only [deriv]
    by_cases hn : nullable a
    · rw [if_pos hn]
      constructor
      · intro h
        rcases matches_alt_iff.mp h with h | h
        · rcases matches_cat_iff.mp h with ⟨s₁, s₂, rfl, h₁, h₂⟩
          exact Matches.cat (iha.mp h₁) h₂
        · exact Matches.cat (nullable_iff.mp hn) (ihb.mp h)
      · intro h
        rcases matches_cat_iff.mp h with ⟨s₁, s₂, hs, h₁, h₂⟩
        cases s₁ with
        | nil =>
          rw [List.nil_append] at hs
          exact Matches.altR (ihb.mpr (hs.symm ▸ h₂))
        | cons c' s₁' =>
          rw [List.cons_append, List.cons.injEq] at hs
          obtain ⟨rfl, rfl⟩ := hs
          exact Matches.altL (Matches.cat (iha.mpr h₁) h₂)
    · rw [if_neg hn]
      constructor
      · intro h
        rcases matches_cat_iff.mp h with ⟨s₁, s₂, rfl, h₁, h₂⟩
        exact Matches.cat (iha.mp h₁) h₂
      · intro h
        rcases matches_cat_iff.mp h with ⟨s₁, s₂, hs, h₁, h₂⟩
        cases s₁ with
        | nil =>
          exact absurd (nullable_iff.mpr h₁) hn
        | cons c' s₁' =>
          rw [List.cons_append, List.cons.injEq] at hs
          obtain ⟨rfl, rfl⟩ := hs
          exact Matches.cat (iha.mpr h₁) h₂
  | alt a b iha ihb =>
    simp only [deriv, matches_alt_iff]
    rw [iha, ihb]
  | star a ih =>
    simp only [deriv]
    constructor
    · intro h
      rcases matches_cat_iff.mp h with ⟨s₁, s₂, rfl, h₁, h₂⟩
      exact .starCons (ih.mp h₁) h₂
    · intro h
      cases h with
      | starCons h₁ h₂ =>
        exact matches_cat_iff.mpr ⟨_, _, rfl, ih.mpr h₁, h₂⟩

theorem rmatch_iff {r : Regex} {s : List Char} :
    rmatch r s = true ↔ Matches r s := by
  induction s generalizing r with
  | nil => exact nullable_iff
  | cons c s ih =>
    simp only [rmatch]
    rw [ih, matches_deriv]

/-- A sequence of literal characters in front of a continuation regex. -/
def litCat (t : List Char) (k : Regex) : Regex :=
  t.foldr (fun c r => .cat (.lit c) r) k

theorem matches_litCat {t : List Char} {k : Regex} {s : List Char} :
    Matches (litCat t k) s ↔ ∃ s', s = t ++ s' ∧ Matches k s' := by
  induction t generalizing s with
  | nil =>
    simp only [litCat, List.foldr_nil, List.nil_append]
    constructor
    · intro h; exact ⟨s, rfl, h⟩
    · rintro ⟨s', rfl, h⟩; exact h
  | cons c t ih =>
    simp only [litCat, List.foldr_cons] at ih ⊢
    constructor
    · intro h
      rcases matches_cat_iff.mp h with ⟨s₁, s₂, rfl, h₁, h₂⟩
      rw [matches_lit_iff] at h₁
      subst h₁
      rcases ih.mp h₂ with ⟨s', rfl, hk⟩
      exact ⟨s', rfl, hk⟩
    · rintro ⟨s', rfl, hk⟩
      have h2 : Matches (t.foldr (fun c r => .cat (.lit c) r) k) (t ++ s') :=
        ih.mpr ⟨s', rfl, hk⟩
      have h3 := Matches.cat (.lit c) h2
      simpa using h3

theorem matches_starAny (s : List Char) : Matches (.star .any) s := by
  induction s with
  | nil => exact .starNil
  | cons c s ih => exact .starCons (.any c) ih

theorem matches_catStarAny {r : Regex} {s : List Char} :
    Matches (.cat (.star .any) r) s ↔ ∃ p q, s = p ++ q ∧ Matches r q := by
  constructor
  · intro h
    rcases matches_cat_iff.mp h with ⟨p, q, rfl, _, hq⟩
    exact ⟨p, q, rfl, hq⟩
  · rintro ⟨p, q, rfl, hq⟩
    exact Matches.cat (matches_starAny p) hq

/-- Unanchored search: does the regex match some substring of `s`?  This
models `QString::contains(QRegularExpression)`. -/
def rcontains (r : Regex) (s : List Char) : Bool :=
  rmatch (.cat (.star .any) (.cat r (.star .any))) s

theorem rcontains_iff {r : Regex} {s : List Char} :
    rcontains r s = true ↔ ∃ p m q, s = p ++ m ++ q ∧ Matches r m := by
  rw [rcontains, rmatch_iff, matches_catStarAny]
  constructor
  · rintro ⟨p, q, rfl, hq⟩
    rcases matches_cat_iff.mp hq with ⟨m, q', rfl, hm, _⟩
    exact ⟨p, m, q', by rw [List.append_assoc], hm⟩
  · rintro ⟨p, m, q, rfl, hm⟩
    exact ⟨p, m ++ q, by rw [List.append_assoc], Matches.cat hm (matches_starAny q)⟩

end Regex

/-- Characters with special meaning in the modelled pattern syntax. -/
def metaCharList : List Char :=
  ['\\', '.', '*', '+', '?', '|', '(', ')', '[', ']', '\x7b', '\x7d', '^', '$']

/-- Is the character a pattern metacharacter in the modelled syntax? -/
def isMeta (c : Char) : Bool := c ∈ metaCharList

/-- Parse one atom of a pattern: a backslash escape (matched as the
escaped literal character), the `.` wildcard (any character except
newline, the engine's default), or a plain literal character.  Returns the atom's regex and the remaining input; `none`
on a syntax error (dangling backslash, stray metacharacter, empty
input). -/
def takeAtom (s : List Char) : Option (Regex × List Char) :=
  match s with
  | [] => none
  | c :: rest =>
    if c = '\\' then
      match rest with
      | d :: rest' => some (.lit d, rest')
      | [] => none
    else if c = '.' then some (.dot, rest)
    else if isMeta c then none
    else some (.lit c, rest)

/-- Attach a quantifier following a parsed atom, if present. -/
def applyQuant (a : Regex) (s : List Char) : Regex × List Char :=
  match s with
  | [] => (a, s)
  | c :: t =>
    if c = '*' then (.star a, t)
    else if c = '+' then (.cat a (.star a), t)
    else if c = '?' then (.alt a .eps, t)
    else (a, s)

theorem takeAtom_length {s : List Char} {a : Regex} {rest : List Char}
    (h : takeAtom s = some (a, rest)) : rest.length < s.length := by
  match s with
  | [] => simp [takeAtom] at h
  | c :: s' =>
    rw [takeAtom.eq_def] at h; simp only [] at h
    by_cases h1 : c = '\\'
    · rw [if_pos h1] at h
      match s' with
      | [] => simp at h
      | d :: s'' =>
        simp only [Option.some.injEq, Prod.mk.injEq] at h
        rw [← h.2]
        simp only [List.length_cons]
        omega
    · rw [if_neg h1] at h
      by_cases h2 : c = '.'
      · rw [if_pos h2] at h
        simp only [Option.some.injEq, Prod.mk.injEq] at h
        rw [← h.2]
        simp
      · rw [if_neg h2] at h
        by_cases h3 : isMeta c
        · simp [h3] at h
        · simp only [h3, Bool.false_eq_true, if_false, Option.some.injEq,
            Prod.mk.injEq] at h
          rw [← h.2]
          simp

theorem applyQuant_length (a : Regex) (s : List Char) :
    ((applyQuant a s).2).length ≤ s.length := by
  match s with
  | [] => simp [applyQuant]
  | c :: t =>
    rw [applyQuant]
    by_cases h1 : c = '*'
    · simp [h1]
    · rw [if_neg h1]
      by_cases h2 : c = '+'
      · simp [h2]
      · rw [if_neg h2]
        by_cases h3 : c = '?'
        · simp [h3]
        · simp [h3]

/-- Model of `QRegularExpression` pattern compilation: parses a pattern
string as a sequence of atoms with optional `*`, `+`, `?` quantifiers.
Returns `none` on invalid syntax (the model of an invalid
`QRegularExpression`). -/
def parseSeq (s : List Char) : Option Regex :=
  match hs : takeAtom s with
  | none => if s.isEmpty then some .eps else none
  | some (a, rest) =>
    match hq : applyQuant a rest with
    | (a', t) => (Regex.cat a') <$> parseSeq t
termination_by s.length
decreasing_by
  have h1 := takeAtom_length hs
  have h2 := applyQuant_length a rest
  rw [hq] at h2
  simp only at h2
  omega


/-- Quantifier characters of the modelled pattern syntax. -/
def quantCharList : List Char := ['*', '+', '?']

/-- Does the input start with a quantifier character? -/
def quantHead : List Char → Bool
  | [] => false
  | c :: _ => c ∈ quantCharList

/-- Word characters, kept verbatim by `QRegularExpression::escape`. -/
def isWordChar (c : Char) : Bool := c.isAlphanum || c = '_'

/-- Model of `QRegularExpression::escape` on one character: word
characters are kept, every other character is preceded by a backslash. -/
def escapeChar (c : Char) : List Char :=
  if isWordChar c then [c] else ['\\', c]

/-- Model of `QRegularExpression::escape` on a string. -/
def escapeStr : List Char → List Char
  | [] => []
  | c :: t => escapeChar c ++ escapeStr t

theorem isWordChar_not_meta {c : Char} (h : isWordChar c = true) :
    isMeta c = false := by
  by_contra hm
  rw [Bool.not_eq_false] at hm
  unfold isMeta metaCharList at hm
  rw [decide_eq_true_eq] at hm
  simp only [List.mem_cons, List.not_mem_nil, or_false] at hm
  rcases hm with rfl | rfl | rfl | rfl | rfl | rfl | rfl | rfl | rfl | rfl | rfl | rfl | rfl | rfl <;>
    exact absurd h (by decide)

theorem isWordChar_not_quant {c : Char} (h : isWordChar c = true) :
    (c ∈ quantCharList : Bool) = false := by
  by_contra hm
  rw [Bool.not_eq_false, decide_eq_true_eq] at hm
  unfold quantCharList at hm
  simp only [List.mem_cons, List.not_mem_nil, or_false] at hm
  rcases hm with rfl | rfl | rfl <;> exact absurd h (by decide)

theorem quantHead_escapeStr_append (t rest : List Char)
    (hr : quantHead rest = false) :
    quantHead (escapeStr t ++ rest) = false := by
  cases t with
  | nil => simpa [escapeStr]
  | cons c t =>
    rw [escapeStr, escapeChar]
    by_cases hw : isWordChar c
    · rw [if_pos hw]
      simp only [List.cons_append, List.singleton_append, quantHead]
      exact isWordChar_not_quant hw
    · rw [if_neg hw]
      simp only [List.cons_append, quantHead]
      decide

theorem takeAtom_lit {c : Char} (s : List Char) (hm : isMeta c = false) :
    takeAtom (c :: s) = some (.lit c, s) := by
  have hb : c ≠ '\\' := by
    rintro rfl
    rw [show isMeta '\\' = true by decide] at hm
    cases hm
  have hd : c ≠ '.' := by
    rintro rfl
    rw [show isMeta '.' = true by decide] at hm
    cases hm
  rw [takeAtom.eq_def]
  simp only [if_neg hb, if_neg hd, hm]
  simp

theorem takeAtom_esc (c : Char) (s : List Char) :
    takeAtom ('\\' :: c :: s) = some (.lit c, s) := by
  rw [takeAtom.eq_def]
  simp

theorem takeAtom_dot (s : List Char) :
    takeAtom ('.' :: s) = some (.dot, s) := by
  rw [takeAtom.eq_def]
  simp

theorem applyQuant_no_quant (a : Regex) {s : List Char}
    (h : quantHead s = false) : applyQuant a s = (a, s) := by
  cases s with
  | nil => rw [applyQuant]
  | cons c t =>
    rw [quantHead] at h
    have h1 : c ≠ '*' := by
      rintro rfl; rw [show (('*' ∈ quantCharList : Bool)) = true by decide] at h; cases h
    have h2 : c ≠ '+' := by
      rintro rfl; rw [show (('+' ∈ quantCharList : Bool)) = true by decide] at h; cases h
    have h3 : c ≠ '?' := by
      rintro rfl; rw [show (('?' ∈ quantCharList : Bool)) = true by decide] at h; cases h
    rw [applyQuant, if_neg h1, if_neg h2, if_neg h3]

theorem parseSeq_nil : parseSeq [] = some .eps := by
  rw [parseSeq.eq_def]
  simp [takeAtom]

theorem parseSeq_cons_of {s : List Char} {a : Regex} {rest : List Char}
    {a' : Regex} {t : List Char}
    (h1 : takeAtom s = some (a, rest)) (h2 : applyQuant a rest = (a', t)) :
    parseSeq s = (Regex.cat a') <$> parseSeq t := by
  rw [parseSeq.eq_def]
  split
  · next heq =>
      rw [h1] at heq
      cases heq
  · next a2 rest2 heq =>
      rw [h1] at heq
      simp only [Option.some.injEq, Prod.mk.injEq] at heq
      obtain ⟨rfl, rfl⟩ := heq
      rw [h2]

theorem parseSeq_lit_cons {c : Char} {s : List Char}
    (hm : isMeta c = false) (hq : quantHead s = false) :
    parseSeq (c :: s) = (Regex.cat (.lit c)) <$> parseSeq s :=
  parseSeq_cons_of (takeAtom_lit s hm) (applyQuant_no_quant _ hq)

theorem parseSeq_esc_cons (c : Char) {s : List Char}
    (hq : quantHead s = false) :
    parseSeq ('\\' :: c :: s) = (Regex.cat (.lit c)) <$> parseSeq s :=
  parseSeq_cons_of (takeAtom_esc c s) (applyQuant_no_quant _ hq)

theorem parseSeq_dotstar (s : List Char) :
    parseSeq ('.' :: '*' :: s) = (Regex.cat (.star .dot)) <$> parseSeq s := by
  refine parseSeq_cons_of (takeAtom_dot _) ?_
  rw [applyQuant]
  simp

theorem parseSeq_escapeStr_append (t rest : List Char)
    (hr : quantHead rest = false) :
    parseSeq (escapeStr t ++ rest) =
      (Regex.litCat t) <$> parseSeq rest := by
  induction t with
  | nil =>
    rw [escapeStr, List.nil_append]
    cases hp : parseSeq rest <;> simp [Regex.litCat]
  | cons c t ih =>
    rw [escapeStr, escapeChar]
    by_cases hw : isWordChar c
    · rw [if_pos hw]
      rw [List.singleton_append, List.cons_append]
      rw [parseSeq_lit_cons (isWordChar_not_meta hw)
        (quantHead_escapeStr_append t rest hr)]
      rw [ih]
      cases hp : parseSeq rest <;> simp [Regex.litCat]
    · rw [if_neg hw]
      rw [show (['\\', c] ++ escapeStr t) ++ rest =
        '\\' :: c :: (escapeStr t ++ rest) from rfl]
      rw [parseSeq_esc_cons c (quantHead_escapeStr_append t rest hr)]
      rw [ih]
      cases hp : parseSeq rest <;> simp [Regex.litCat]

/-- PCRE whitespace class, the `\s` of the source's `reWhiteSpace`. -/
def isWS (c : Char) : Bool :=
  c = ' ' || c = '\t' || c = '\n' || c = '\x0b' || c = '\x0c' || c = '\r'

/-- Model of `text().split(reWhiteSpace, SKIP_EMPTY_PARTS)`: split the
text on runs of whitespace, dropping empty parts.  `acc` accumulates the
characters of the current token, in reverse. -/
def splitWSAux : List Char → List Char → List (List Char)
  | [], acc => if acc.isEmpty then [] else [acc.reverse]
  | c :: s, acc =>
    if isWS c then
      if acc.isEmpty then splitWSAux s [] else acc.reverse :: splitWSAux s []
    else splitWSAux s (c :: acc)

/-- Split a text on runs of whitespace, dropping empty parts. -/
def splitWS (s : List Char) : List (List Char) := splitWSAux s []

theorem splitWSAux_ne_nil : ∀ (s acc : List Char), ∀ t ∈ splitWSAux s acc, t ≠ []
  | [], acc => by
    rw [splitWSAux]
    by_cases h : acc.isEmpty
    · rw [if_pos h]; intro t ht; cases ht
    · rw [if_neg h]
      intro t ht
      rw [List.mem_singleton] at ht
      subst ht
      rw [List.isEmpty_iff] at h
      simpa using h
  | c :: s, acc => by
    rw [splitWSAux]
    by_cases hc : isWS c
    · rw [if_pos hc]
      by_cases h : acc.isEmpty
      · rw [if_pos h]; exact splitWSAux_ne_nil s []
      · rw [if_neg h]
        intro t ht
        rcases List.mem_cons.mp ht with rfl | ht
        · rw [List.isEmpty_iff] at h
          simpa using h
        · exact splitWSAux_ne_nil s [] t ht
    · rw [if_neg hc]; exact splitWSAux_ne_nil s (c :: acc)

theorem splitWS_ne_nil {s : List Char} : ∀ t ∈ splitWS s, t ≠ [] :=
  splitWSAux_ne_nil s []

theorem splitWSAux_eq_nil_iff : ∀ (s acc : List Char),
    splitWSAux s acc = [] ↔ (∀ c ∈ s, isWS c = true) ∧ acc = []
  | [], acc => by
    rw [splitWSAux]
    by_cases h : acc.isEmpty
    · rw [if_pos h]
      rw [List.isEmpty_iff] at h
      simp [h]
    · rw [if_neg h]
      rw [List.isEmpty_iff] at h
      simp [h]
  | c :: s, acc => by
    rw [splitWSAux]
    by_cases hc : isWS c
    · rw [if_pos hc]
      by_cases h : acc.isEmpty
      · rw [if_pos h]
        rw [splitWSAux_eq_nil_iff s []]
        rw [List.isEmpty_iff] at h
        simp [h, hc]
      · rw [if_neg h]
        rw [List.isEmpty_iff] at h
        simp [h, hc]
    · rw [if_neg hc]
      rw [splitWSAux_eq_nil_iff s (c :: acc)]
      simp [hc]

theorem splitWS_eq_nil_iff {s : List Char} :
    splitWS s = [] ↔ ∀ c ∈ s, isWS c = true := by
  rw [splitWS, splitWSAux_eq_nil_iff]
  simp

/-- One step of the non-regex pattern construction loop in
`FilterLineEdit::filter`: append `.*` before every token but the first,
then append the escaped token. -/
def buildStep (pattern str : List Char) : List Char :=
  (if pattern.isEmpty then pattern else pattern ++ ['.', '*']) ++ escapeStr str

/-- Model of the non-regex pattern construction in
`FilterLineEdit::filter`: fold `buildStep` over the whitespace-split
tokens, starting from the empty pattern. -/
def buildPattern (tokens : List (List Char)) : List Char :=
  tokens.foldl buildStep []

/-- The tail of an escaped-and-joined token list: `.*` then the escaped
token, repeated. -/
def escJoinRest : List (List Char) → List Char
  | [] => []
  | t :: ts => '.' :: '*' :: (escapeStr t ++ escJoinRest ts)

/-- Escaped tokens joined with `.*`. -/
def escJoin : List (List Char) → List Char
  | [] => []
  | t :: ts => escapeStr t ++ escJoinRest ts

theorem escapeStr_ne_nil {t : List Char} (h : t ≠ []) : escapeStr t ≠ [] := by
  cases t with
  | nil => exact absurd rfl h
  | cons c t =>
    rw [escapeStr, escapeChar]
    by_cases hw : isWordChar c <;> simp [hw]

theorem foldl_buildStep_nonempty (ts : List (List Char)) (p : List Char)
    (hp : p ≠ []) : ts.foldl buildStep p = p ++ escJoinRest ts := by
  induction ts generalizing p with
  | nil => simp [escJoinRest]
  | cons t ts ih =>
    rw [List.foldl_cons, escJoinRest]
    have hstep : buildStep p t = p ++ ('.' :: '*' :: escapeStr t) := by
      rw [buildStep, if_neg (by simpa [List.isEmpty_iff] using hp)]
      simp
    rw [hstep, ih _ (by simp [hp])]
    simp

theorem buildPattern_eq_escJoin (ts : List (List Char))
    (h : ∀ t ∈ ts, t ≠ []) : buildPattern ts = escJoin ts := by
  cases ts with
  | nil => rfl
  | cons t ts =>
    rw [buildPattern, List.foldl_cons, escJoin]
    have h1 : buildStep [] t = escapeStr t := by
      rw [buildStep]
      simp
    rw [h1, foldl_buildStep_nonempty ts _ (escapeStr_ne_nil (h t (by simp)))]

/-- The regex denoted by a non-regex-mode token list: the tokens as
literal runs, joined by `.*`. -/
def tokensRegex : List (List Char) → Regex
  | [] => .eps
  | [t] => Regex.litCat t .eps
  | t :: t' :: ts => Regex.litCat t (.cat (.star .dot) (tokensRegex (t' :: ts)))

theorem parseSeq_escJoin : ∀ ts : List (List Char),
    parseSeq (escJoin ts) = some (tokensRegex ts)
  | [] => by rw [escJoin, tokensRegex, parseSeq_nil]
  | [t] => by
    rw [escJoin, escJoinRest, tokensRegex]
    rw [parseSeq_escapeStr_append t [] (by rw [quantHead])]
    rw [parseSeq_nil]
    rfl
  | t :: t' :: ts => by
    rw [escJoin, escJoinRest, tokensRegex]
    have hq : quantHead ('.' :: '*' :: (escapeStr t' ++ escJoinRest ts)) = false := by
      rw [quantHead]; decide
    rw [parseSeq_escapeStr_append t _ hq]
    rw [parseSeq_dotstar]
    have ih := parseSeq_escJoin (t' :: ts)
    rw [escJoin] at ih
    rw [ih]
    rfl

/-- Lower-case a regex's literal characters; together with lower-cased
subject text this models `QRegularExpression::CaseInsensitiveOption`. -/
def Regex.lower : Regex → Regex
  | .zero => .zero
  | .eps => .eps
  | .any => .any
  | .dot => .dot
  | .lit c => .lit c.toLower
  | .cat a b => .cat (Regex.lower a) (Regex.lower b)
  | .alt a b => .alt (Regex.lower a) (Regex.lower b)
  | .star a => .star (Regex.lower a)

/-- Case-fold subject text when the case-insensitive option is set. -/
def foldCase (ci : Bool) (s : List Char) : List Char :=
  if ci then s.map Char.toLower else s

/-- Case-fold a regex when the case-insensitive option is set. -/
def reFold (ci : Bool) (r : Regex) : Regex :=
  if ci then r.lower else r

/-- The compiled filter value `ItemFilterRegExp`: `m_re` is represented
by its pattern string and its case-sensitivity option, `m_searchString`
by the raw text the filter was compiled from. -/
structure ItemFilterRegExp where
  pattern : List Char
  caseInsensitive : Bool
  searchString : List Char
  deriving DecidableEq, Repr

namespace ItemFilterRegExp

/-- `matchesAll`: `m_re.pattern().isEmpty()`. -/
def matchesAll (f : ItemFilterRegExp) : Bool := f.pattern.isEmpty

/-- `matchesNone`: `!m_re.isValid()`; validity of the modelled
`QRegularExpression` is success of pattern compilation. -/
def matchesNone (f : ItemFilterRegExp) : Bool := (parseSeq f.pattern).isNone

/-- `matches(QString)`: `text.contains(m_re)`.  An invalid pattern
matches nothing.  (`matches` is a reserved word in Lean, hence
`matchesText`.) -/
def matchesText (f : ItemFilterRegExp) (text : List Char) : Bool :=
  match parseSeq f.pattern with
  | none => false
  | some r =>
    Regex.rcontains (reFold f.caseInsensitive r) (foldCase f.caseInsensitive text)

/-- Modelled from the spec: `anchoredRegExp` (declared in
`common/regexp.h`, whose definition is not among the sources) anchors a
pattern string so that a containment test against the anchored pattern
succeeds exactly when the whole subject string matches the pattern.  The
anchored pattern is rebuilt from the pattern text alone, with default
pattern options. -/
def anchoredContains (p : List Char) (key : List Char) : Bool :=
  match parseSeq p with
  | none => false
  | some r => Regex.rmatch r key

/-- `matches(QModelIndex)`: match the field names (keys of the item's
data map) against the anchored pattern, but only when the pattern
contains exactly one `/`. -/
def matchesFields (f : ItemFilterRegExp) (keys : List (List Char)) : Bool :=
  if f.pattern.count '/' ≠ 1 then false
  else keys.any (anchoredContains f.pattern)

end ItemFilterRegExp

/-- The two filter option toggles read by `FilterLineEdit::filter`. -/
structure FilterOptions where
  useRegex : Bool
  caseInsensitive : Bool
  deriving DecidableEq, Repr

/-- `FilterLineEdit::filter()`: in regex mode the raw text is the
pattern; otherwise the whitespace-split tokens are escaped and joined
with `.*`.  The raw text is kept as the search string. -/
def compileFilter (text : List Char) (opts : FilterOptions) : ItemFilterRegExp :=
  { pattern := if opts.useRegex then text else buildPattern (splitWS text)
    caseInsensitive := opts.caseInsensitive
    searchString := text }

/-- Specification-side predicate: the tokens all occur in the text, in
token order, not necessarily adjacent. -/
inductive InOrder : List (List Char) → List Char → Prop where
  | nil (s : List Char) : InOrder [] s
  | cons (pre : List Char) {t : List Char} {ts : List (List Char)}
      {rest : List Char} :
      InOrder ts rest → InOrder (t :: ts) (pre ++ (t ++ rest))

theorem inOrder_cons_iff {t : List Char} {ts : List (List Char)}
    {s : List Char} :
    InOrder (t :: ts) s ↔ ∃ pre rest, s = pre ++ (t ++ rest) ∧ InOrder ts rest := by
  constructor
  · intro h
    cases h with
    | cons pre h => exact ⟨pre, _, rfl, h⟩
  · rintro ⟨pre, rest, rfl, h⟩
    exact .cons pre h

theorem no_nl_of_matches_starDot :
    ∀ {r : Regex} {s : List Char},
      Regex.Matches r s → r = .star .dot → '\n' ∉ s := by
  intro r s h
  induction h with
  | eps => intro heq; cases heq
  | any c => intro heq; cases heq
  | dot hne => intro heq; cases heq
  | lit c => intro heq; cases heq
  | cat h1 h2 ih1 ih2 => intro heq; cases heq
  | altL h ih => intro heq; cases heq
  | altR h ih => intro heq; cases heq
  | starNil => intro _; simp
  | starCons h1 h2 ih1 ih2 =>
    intro heq
    injection heq with heq
    subst heq
    rcases Regex.matches_dot_iff.mp h1 with ⟨d, hd, hne⟩
    injection hd with h3 h4
    subst h3
    subst h4
    have hrest := ih2 rfl
    intro h5
    rcases List.mem_cons.mp h5 with h6 | h6
    · exact hne h6.symm
    · exact hrest h6

theorem matches_starDot_of_no_nl :
    ∀ {s : List Char}, '\n' ∉ s → Regex.Matches (.star .dot) s := by
  intro s
  induction s with
  | nil => intro _; exact .starNil
  | cons c s ih =>
    intro h
    have h1 : c ≠ '\n' := fun hc => h (List.mem_cons.mpr (.inl hc.symm))
    have h2 : '\n' ∉ s := fun hmem => h (List.mem_cons.mpr (.inr hmem))
    exact Regex.Matches.starCons (.dot h1) (ih h2)

theorem matches_starDot_iff {s : List Char} :
    Regex.Matches (.star .dot) s ↔ '\n' ∉ s :=
  ⟨fun h => no_nl_of_matches_starDot h rfl, matches_starDot_of_no_nl⟩

theorem matches_catStarDot {r : Regex} {s : List Char} :
    Regex.Matches (.cat (.star .dot) r) s ↔
      ∃ p q, s = p ++ q ∧ '\n' ∉ p ∧ Regex.Matches r q := by
  rw [Regex.matches_cat_iff]
  constructor
  · rintro ⟨p, q, rfl, h1, h2⟩
    exact ⟨p, q, rfl, matches_starDot_iff.mp h1, h2⟩
  · rintro ⟨p, q, rfl, h1, h2⟩
    exact ⟨p, q, rfl, matches_starDot_iff.mpr h1, h2⟩

/-- Spec-side predicate: a run of the given tokens in order, where the
gap between each pair of consecutive tokens contains no newline (the
`.*` connector's dot does not match newline); the run starts with the
first token and ends with the last. -/
inductive TokChain : List (List Char) → List Char → Prop where
  | single (t : List Char) : TokChain [t] t
  | cons (t gap : List Char) (hgap : '\n' ∉ gap) {ts : List (List Char)}
      {rest : List Char} :
      TokChain ts rest → TokChain (t :: ts) (t ++ (gap ++ rest))

theorem tokChain_single_iff {t m : List Char} : TokChain [t] m ↔ m = t := by
  constructor
  · intro h
    cases h with
    | single => rfl
    | cons _ gap hgap h' => cases h'
  · rintro rfl
    exact .single _

theorem tokChain_cons_iff {t t' : List Char} {ts : List (List Char)}
    {m : List Char} :
    TokChain (t :: t' :: ts) m ↔
      ∃ gap rest, m = t ++ (gap ++ rest) ∧ '\n' ∉ gap ∧
        TokChain (t' :: ts) rest := by
  constructor
  · intro h
    cases h with
    | cons _ gap hgap h' => exact ⟨gap, _, rfl, hgap, h'⟩
  · rintro ⟨gap, rest, rfl, hgap, h⟩
    exact .cons t gap hgap h

/-- Spec-side predicate for the amended token-order property: either
there are no tokens, or some substring of the text is the tokens in
order with newline-free gaps between consecutive tokens. -/
def InOrderNoNl (ts : List (List Char)) (text : List Char) : Prop :=
  ts = [] ∨ ∃ pre m suf, text = pre ++ m ++ suf ∧ TokChain ts m

theorem matches_tokensRegex_iff :
    ∀ (ts : List (List Char)) (m : List Char), ts ≠ [] →
      (Regex.Matches (tokensRegex ts) m ↔ TokChain ts m)
  | [], _ => fun h => absurd rfl h
  | [t], m => by
    intro _
    rw [tokensRegex, Regex.matches_litCat, tokChain_single_iff]
    constructor
    · rintro ⟨s', rfl, he⟩
      rw [Regex.matches_eps_iff] at he
      subst he
      simp
    · rintro rfl
      exact ⟨[], by simp, .eps⟩
  | t :: t' :: ts, m => by
    intro _
    rw [tokensRegex, Regex.matches_litCat, tokChain_cons_iff]
    constructor
    · rintro ⟨s', rfl, hs'⟩
      rcases matches_catStarDot.mp hs' with ⟨gap, v, rfl, hgap, hv⟩
      exact ⟨gap, v, rfl, hgap,
        (matches_tokensRegex_iff (t' :: ts) v (by simp)).mp hv⟩
    · rintro ⟨gap, rest, rfl, hgap, h⟩
      exact ⟨gap ++ rest, rfl,
        matches_catStarDot.mpr ⟨gap, rest, rfl, hgap,
          (matches_tokensRegex_iff (t' :: ts) rest (by simp)).mpr h⟩⟩

theorem rcontains_tokensRegex_iff (ts : List (List Char)) (text : List Char) :
    Regex.rcontains (tokensRegex ts) text = true ↔ InOrderNoNl ts text := by
  rw [Regex.rcontains_iff]
  unfold InOrderNoNl
  cases ts with
  | nil =>
    constructor
    · intro _
      exact Or.inl rfl
    · intro _
      exact ⟨[], [], text, rfl, .eps⟩
  | cons t ts' =>
    constructor
    · rintro ⟨p, m, q, rfl, hm⟩
      exact Or.inr ⟨p, m, q, rfl,
        (matches_tokensRegex_iff (t :: ts') m (by simp)).mp hm⟩
    · rintro (h | ⟨pre, m, suf, rfl, hc⟩)
      · cases h
      · exact ⟨pre, m, suf, rfl,
          (matches_tokensRegex_iff (t :: ts') m (by simp)).mpr hc⟩

theorem matchesText_of_parse {f : ItemFilterRegExp} {r : Regex} {text : List Char}
    (h : parseSeq f.pattern = some r) :
    f.matchesText text =
      Regex.rcontains (reFold f.caseInsensitive r)
        (foldCase f.caseInsensitive text) := by
  rw [ItemFilterRegExp.matchesText.eq_def, h]

theorem matchesText_of_parse_none {f : ItemFilterRegExp} {text : List Char}
    (h : parseSeq f.pattern = none) : f.matchesText text = false := by
  rw [ItemFilterRegExp.matchesText.eq_def, h]

theorem parseSeq_compile_nonregex (raw : List Char) (ci : Bool) :
    parseSeq (compileFilter raw ⟨false, ci⟩).pattern =
      some (tokensRegex (splitWS raw)) := by
  show parseSeq (buildPattern (splitWS raw)) = _
  rw [buildPattern_eq_escJoin _ splitWS_ne_nil, parseSeq_escJoin]

/-- C1, counterexample to the claim as stated: in the text `"foo\nbar"`
the tokens `foo` and `bar` occur in token order, yet the filter compiled
from `"foo bar"` with `useRegex = false` does not match, because the
dot of the `.*` connector does not match a newline. -/
theorem C1_nonregex_token_order_counterexample :
    InOrder (splitWS "foo bar".data) ['f','o','o','\n','b','a','r'] ∧
    (compileFilter "foo bar".data ⟨false, false⟩).matchesText
      ['f','o','o','\n','b','a','r'] = false := by
  constructor
  · rw [show splitWS "foo bar".data = [['f','o','o'], ['b','a','r']] by decide]
    have h0 : InOrder [] ([] : List Char) := .nil _
    have h1 : InOrder [['b','a','r']] (['\n'] ++ (['b','a','r'] ++ [])) :=
      .cons _ h0
    have h2 : InOrder [['f','o','o'], ['b','a','r']]
        ([] ++ (['f','o','o'] ++ (['\n'] ++ (['b','a','r'] ++ [])))) :=
      .cons _ h1
    have he : ['f','o','o','\n','b','a','r'] =
        [] ++ (['f','o','o'] ++ (['\n'] ++ (['b','a','r'] ++ []))) := by decide
    rw [he]
    exact h2
  · rw [matchesText_of_parse (parseSeq_compile_nonregex "foo bar".data false)]
    rw [show splitWS "foo bar".data = [['f','o','o'], ['b','a','r']] by decide]
    show Regex.rcontains (tokensRegex [['f','o','o'], ['b','a','r']])
      ['f','o','o','\n','b','a','r'] = false
    decide

/-- C1 (amended): compiled with `useRegex = false`, the raw text is
split on runs of whitespace into tokens, empty tokens are dropped, each
token is escaped to match literally, and the tokens are joined by a
`.*` connector whose dot matches any character except newline, so
`matches(text)` holds iff the tokens occur in the text in token order
with no newline inside any gap between consecutive tokens; concretely,
compiling `"foo bar"` yields a filter that matches `"a foo b bar c"`
and does not match `"a bar b c"`. -/
theorem C1_nonregex_token_order_amended :
    (∀ raw text : List Char,
      (compileFilter raw ⟨false, false⟩).matchesText text = true ↔
        InOrderNoNl (splitWS raw) text) ∧
    (compileFilter "foo bar".data ⟨false, false⟩).matchesText
      "a foo b bar c".data = true ∧
    (compileFilter "foo bar".data ⟨false, false⟩).matchesText
      "a bar b c".data = false := by
  have main : ∀ raw text : List Char,
      (compileFilter raw ⟨false, false⟩).matchesText text = true ↔
        InOrderNoNl (splitWS raw) text := by
    intro raw text
    rw [matchesText_of_parse (parseSeq_compile_nonregex raw false)]
    show Regex.rcontains (tokensRegex (splitWS raw)) text = true ↔ _
    exact rcontains_tokensRegex_iff _ _
  refine ⟨main, ?_, ?_⟩
  · rw [main]
    rw [show splitWS "foo bar".data = [['f','o','o'], ['b','a','r']] by decide]
    unfold InOrderNoNl
    refine Or.inr ⟨"a ".data, ['f','o','o'] ++ (" b ".data ++ ['b','a','r']),
      " c".data, by decide, ?_⟩
    exact TokChain.cons ['f','o','o'] " b ".data (by decide)
      (TokChain.single ['b','a','r'])
  · rw [Bool.eq_false_iff, Ne, main]
    rw [show splitWS "foo bar".data = [['f','o','o'], ['b','a','r']] by decide]
    intro h
    unfold InOrderNoNl at h
    rcases h with h | ⟨pre, m, suf, heq, hc⟩
    · cases h
    · rcases tokChain_cons_iff.mp hc with ⟨gap, rest, rfl, _, _⟩
      have hinf : ['f','o','o'] <:+: "a bar b c".data :=
        ⟨pre, (gap ++ rest) ++ suf, by rw [heq]; simp⟩
      exact absurd hinf (by decide)

theorem dropWhile_head_false {p : Char → Bool} :
    ∀ {l t : List Char} {c : Char}, l.dropWhile p = c :: t → p c = false := by
  intro l
  induction l with
  | nil => intro t c h; simp [List.dropWhile] at h
  | cons a l ih =>
    intro t c h
    rw [List.dropWhile_cons] at h
    by_cases hp : p a
    · rw [if_pos hp] at h
      exact ih h
    · rw [if_neg hp] at h
      injection h with h1 _
      subst h1
      exact Bool.eq_false_iff.mpr hp

/-- Model of `QString::trimmed()`: strip leading and trailing
whitespace. -/
def trimWS (s : List Char) : List Char :=
  ((s.dropWhile isWS).reverse.dropWhile isWS).reverse

theorem trimWS_eq_nil_iff {s : List Char} :
    trimWS s = [] ↔ ∀ c ∈ s, isWS c = true := by
  rw [trimWS, List.reverse_eq_nil_iff]
  constructor
  · intro h
    have h2 : ∀ c ∈ (s.dropWhile isWS).reverse, isWS c = true :=
      List.dropWhile_eq_nil_iff.mp h
    have h3 : ∀ c ∈ s.dropWhile isWS, isWS c = true := by
      intro c hc
      exact h2 c (List.mem_reverse.mpr hc)
    have h4 : s.dropWhile isWS = [] := by
      match hd : s.dropWhile isWS with
      | [] => rfl
      | c :: t =>
        have hc : isWS c = false := dropWhile_head_false hd
        have hc2 : isWS c = true := h3 c (by rw [hd]; simp)
        rw [hc2] at hc
        cases hc
    exact List.dropWhile_eq_nil_iff.mp h4
  · intro h
    have h4 : s.dropWhile isWS = [] := List.dropWhile_eq_nil_iff.mpr h
    rw [h4]
    rfl

theorem buildPattern_eq_nil_iff {ts : List (List Char)}
    (h : ∀ t ∈ ts, t ≠ []) : buildPattern ts = [] ↔ ts = [] := by
  cases ts with
  | nil => simp [buildPattern]
  | cons t ts =>
    rw [buildPattern_eq_escJoin _ h, escJoin]
    constructor
    · intro hx
      rcases List.append_eq_nil.mp hx with ⟨h1, _⟩
      exact absurd h1 (escapeStr_ne_nil (h t (by simp)))
    · intro hx
      cases hx

/-- C3: `matchesAll` holds iff the whitespace-trimmed raw text is empty
when `useRegex` is false, iff the raw text itself is empty when
`useRegex` is true; equivalently, iff the compiled pattern string is
empty. -/
theorem C3_matchesAll_characterization :
    ∀ (t : List Char) (o : FilterOptions),
      ((compileFilter t o).matchesAll = true ↔
        (if o.useRegex then t = [] else trimWS t = [])) ∧
      ((compileFilter t o).matchesAll = true ↔
        (compileFilter t o).pattern = []) := by
  intro t o
  have hpat : (compileFilter t o).matchesAll = true ↔
      (compileFilter t o).pattern = [] := by
    rw [ItemFilterRegExp.matchesAll, List.isEmpty_iff]
  refine ⟨?_, hpat⟩
  rw [hpat]
  cases o with
  | mk ur ci =>
    cases ur with
    | false =>
      show buildPattern (splitWS t) = [] ↔ trimWS t = []
      rw [buildPattern_eq_nil_iff splitWS_ne_nil, splitWS_eq_nil_iff,
        ← trimWS_eq_nil_iff]
    | true =>
      exact Iff.rfl

/-- C2: pattern compilation is a total function of the raw text and the
options (modelled by `compileFilter` being total, never an error value);
`matchesNone()` holds iff the raw text is nonempty and its pattern fails
to compile; a non-regex pattern always compiles, so failure is reachable
only in regex mode, where it is reachable (`"("` is invalid). -/
theorem C2_matchesNone_characterization :
    (∀ (t : List Char) (o : FilterOptions),
      (compileFilter t o).matchesNone = true ↔
        (t ≠ [] ∧ parseSeq (compileFilter t o).pattern = none)) ∧
    (∀ (t : List Char) (ci : Bool),
      (compileFilter t ⟨false, ci⟩).matchesNone = false) ∧
    (compileFilter ['('] ⟨true, false⟩).matchesNone = true := by
  have hnonre : ∀ (t : List Char) (ci : Bool),
      (compileFilter t ⟨false, ci⟩).matchesNone = false := by
    intro t ci
    rw [ItemFilterRegExp.matchesNone, parseSeq_compile_nonregex]
    rfl
  refine ⟨?_, hnonre, ?_⟩
  · intro t o
    cases o with
    | mk ur ci =>
      cases ur with
      | false =>
        rw [hnonre t ci]
        simp only [Bool.false_eq_true, false_iff]
        rintro ⟨hne, hnone⟩
        rw [parseSeq_compile_nonregex] at hnone
        cases hnone
      | true =>
        show (parseSeq t).isNone = true ↔ t ≠ [] ∧ parseSeq t = none
        constructor
        · intro h
          rw [Option.isNone_iff_eq_none] at h
          refine ⟨?_, h⟩
          rintro rfl
          rw [parseSeq_nil] at h
          cases h
        · rintro ⟨-, h⟩
          rw [Option.isNone_iff_eq_none]
          exact h
  · show (parseSeq ['(']).isNone = true
    rw [show parseSeq ['('] = none from by
      rw [parseSeq.eq_def]
      simp [takeAtom, isMeta, metaCharList]]
    rfl

theorem anchoredContains_of_parse {p : List Char} {r : Regex} {key : List Char}
    (h : parseSeq p = some r) :
    ItemFilterRegExp.anchoredContains p key = Regex.rmatch r key := by
  rw [ItemFilterRegExp.anchoredContains.eq_def, h]

theorem parseSeq_compile_ab :
    parseSeq (compileFilter "a/b".data ⟨false, false⟩).pattern =
      some (tokensRegex [['a','/','b']]) := by
  rw [parseSeq_compile_nonregex]
  rw [show splitWS "a/b".data = [['a','/','b']] by decide]

theorem matchesFields_ab_example :
    (compileFilter "a/b".data ⟨false, false⟩).matchesFields
      [['a','/','b'], ['x']] = true := by
  rw [ItemFilterRegExp.matchesFields,
    if_neg (by decide : ¬ (compileFilter "a/b".data ⟨false, false⟩).pattern.count '/' ≠ 1)]
  rw [List.any_cons]
  rw [anchoredContains_of_parse parseSeq_compile_ab]
  rw [show Regex.rmatch (tokensRegex [['a','/','b']]) ['a','/','b'] = true by decide]
  rfl

/-- C4: `matchesFields` returns false whenever the compiled pattern
string does not contain exactly one `/`, regardless of the keys; with
exactly one `/` it is true iff some field name matches the (anchored)
pattern; concretely `compile("a/b")` matches a field map with key
`"a/b"`, and `compile("a/b/c")` (two separators after escaping) always
yields false. -/
theorem C4_matchesFields_slash :
    (∀ (f : ItemFilterRegExp) (keys : List (List Char)),
      f.pattern.count '/' ≠ 1 → f.matchesFields keys = false) ∧
    (∀ (f : ItemFilterRegExp) (keys : List (List Char)),
      f.pattern.count '/' = 1 →
      (f.matchesFields keys = true ↔
        ∃ k ∈ keys, ItemFilterRegExp.anchoredContains f.pattern k = true)) ∧
    (compileFilter "a/b".data ⟨false, false⟩).matchesFields
      [['a','/','b'], ['x']] = true ∧
    (∀ keys : List (List Char),
      (compileFilter "a/b/c".data ⟨false, false⟩).matchesFields keys = false) := by
  refine ⟨?_, ?_, matchesFields_ab_example, ?_⟩
  · intro f keys h
    rw [ItemFilterRegExp.matchesFields, if_pos h]
  · intro f keys h
    rw [ItemFilterRegExp.matchesFields, if_neg (by rw [h]; exact fun hx => hx rfl)]
    exact List.any_eq_true
  · intro keys
    rw [ItemFilterRegExp.matchesFields,
      if_pos (by decide :
        (compileFilter "a/b/c".data ⟨false, false⟩).pattern.count '/' ≠ 1)]

theorem C4_matchesFields_slash_witness :
    (compileFilter "a/b/c".data ⟨false, false⟩).matchesFields
      [['a','/','b']] = false ∧
    ((compileFilter "a/b".data ⟨false, false⟩).matchesFields
        [['a','/','b'], ['x']] = true ↔
      ∃ k ∈ [['a','/','b'], ['x']],
        ItemFilterRegExp.anchoredContains
          (compileFilter "a/b".data ⟨false, false⟩).pattern k = true) :=
  ⟨C4_matchesFields_slash.1 _ _ (by decide),
   C4_matchesFields_slash.2.1 _ _ (by decide)⟩

/-- C9 (implicit): field-name matching is anchored — `matchesFields`
succeeds only when some key matches the pattern as a whole (the
spec-modelled `anchoredRegExp` wraps the pattern so containment means a
full-key match); a key that merely contains the pattern as a proper
substring does not match, although `matches(text)` does. -/
theorem C9_matchesFields_anchored :
    (∀ (f : ItemFilterRegExp) (keys : List (List Char)),
      f.matchesFields keys = true →
        ∃ k ∈ keys, ∃ r, parseSeq f.pattern = some r ∧ Regex.Matches r k) ∧
    (compileFilter "a/b".data ⟨false, false⟩).matchesText "xa/by".data = true ∧
    (compileFilter "a/b".data ⟨false, false⟩).matchesFields
      ["xa/by".data] = false := by
  refine ⟨?_, ?_, ?_⟩
  · intro f keys h
    rw [ItemFilterRegExp.matchesFields] at h
    by_cases hc : f.pattern.count '/' ≠ 1
    · rw [if_pos hc] at h
      cases h
    · rw [if_neg hc] at h
      rcases List.any_eq_true.mp h with ⟨k, hk, hak⟩
      refine ⟨k, hk, ?_⟩
      match hp : parseSeq f.pattern with
      | none =>
        rw [ItemFilterRegExp.anchoredContains.eq_def, hp] at hak
        cases hak
      | some r =>
        rw [anchoredContains_of_parse hp] at hak
        exact ⟨r, rfl, Regex.rmatch_iff.mp hak⟩
  · rw [matchesText_of_parse parseSeq_compile_ab]
    show Regex.rcontains (tokensRegex [['a','/','b']]) "xa/by".data = true
    decide
  · rw [ItemFilterRegExp.matchesFields,
      if_neg (by decide :
        ¬ (compileFilter "a/b".data ⟨false, false⟩).pattern.count '/' ≠ 1)]
    rw [List.any_cons, List.any_nil]
    rw [anchoredContains_of_parse parseSeq_compile_ab]
    rw [show Regex.rmatch (tokensRegex [['a','/','b']]) "xa/by".data = false by decide]
    rfl

theorem C9_matchesFields_anchored_witness :
    ∃ k ∈ [['a','/','b'], ['x']], ∃ r,
      parseSeq (compileFilter "a/b".data ⟨false, false⟩).pattern = some r ∧
        Regex.Matches r k :=
  C9_matchesFields_anchored.1 _ _ matchesFields_ab_example

/-- C10 (implicit): `matchesFields` rebuilds its regex from the pattern
string alone, dropping the case-sensitivity option, so field-name
matching is independent of the flag and case-sensitive even for a filter
compiled with `caseInsensitive = true` — unlike `matches(text)`, which
honors the flag. -/
theorem C10_matchesFields_ignores_case :
    (∀ (p raw : List Char) (keys : List (List Char)) (ci₁ ci₂ : Bool),
      ItemFilterRegExp.matchesFields ⟨p, ci₁, raw⟩ keys =
        ItemFilterRegExp.matchesFields ⟨p, ci₂, raw⟩ keys) ∧
    (compileFilter "a/B".data ⟨false, true⟩).matchesText "xa/bx".data = true ∧
    (compileFilter "a/B".data ⟨false, false⟩).matchesText "xa/bx".data = false ∧
    (compileFilter "a/B".data ⟨false, true⟩).matchesFields
      [['a','/','b']] = false := by
  have hp : ∀ ci : Bool,
      parseSeq (compileFilter "a/B".data ⟨false, ci⟩).pattern =
        some (tokensRegex [['a','/','B']]) := by
    intro ci
    rw [parseSeq_compile_nonregex]
    rw [show splitWS "a/B".data = [['a','/','B']] by decide]
  refine ⟨fun p raw keys ci₁ ci₂ => rfl, ?_, ?_, ?_⟩
  · rw [matchesText_of_parse (hp true)]
    show Regex.rcontains (reFold true (tokensRegex [['a','/','B']]))
      (foldCase true "xa/bx".data) = true
    decide
  · rw [matchesText_of_parse (hp false)]
    show Regex.rcontains (tokensRegex [['a','/','B']]) "xa/bx".data = false
    decide
  · rw [ItemFilterRegExp.matchesFields,
      if_neg (by decide :
        ¬ (compileFilter "a/B".data ⟨false, true⟩).pattern.count '/' ≠ 1)]
    rw [List.any_cons, List.any_nil]
    rw [anchoredContains_of_parse (hp true)]
    rw [show Regex.rmatch (tokensRegex [['a','/','B']]) ['a','/','b'] = false by decide]
    rfl

/-- The end of the longest match of `r` starting at position `p` of
`doc`, if any (model choice: `QTextDocument::find` reports one match per
start position; the model takes the longest). -/
def matchEndAt (r : Regex) (doc : List Char) (p : Nat) : Option Nat :=
  ((List.range (doc.length - p + 1)).reverse).findSome?
    (fun d => if Regex.rmatch r ((doc.drop p).take d) then some (p + d) else none)

/-- Model of forward `QTextDocument::find`: the leftmost match starting
at or after `pos`, as a (start, end) pair; `none` when there is no
match. -/
def findFrom (r : Regex) (doc : List Char) (pos : Nat) : Option (Nat × Nat) :=
  (List.range' pos (doc.length + 1 - pos)).findSome?
    (fun p => (matchEndAt r doc p).map (fun q => (p, q)))

theorem matchEndAt_bounds {r : Regex} {doc : List Char} {p q : Nat}
    (hp : p ≤ doc.length) (h : matchEndAt r doc p = some q) :
    p ≤ q ∧ q ≤ doc.length := by
  rcases List.exists_of_findSome?_eq_some h with ⟨d, hd, hfd⟩
  rw [List.mem_reverse, List.mem_range] at hd
  by_cases hm : Regex.rmatch r ((doc.drop p).take d)
  · rw [if_pos hm] at hfd
    injection hfd with hq
    omega
  · rw [if_neg hm] at hfd
    cases hfd

theorem findFrom_bounds {r : Regex} {doc : List Char} {pos i j : Nat}
    (h : findFrom r doc pos = some (i, j)) :
    pos ≤ i ∧ i ≤ j ∧ j ≤ doc.length := by
  rcases List.exists_of_findSome?_eq_some h with ⟨p, hp, hfp⟩
  rw [List.mem_range'_1] at hp
  match hq : matchEndAt r doc p with
  | none => rw [hq] at hfp; cases hfp
  | some q =>
    rw [hq] at hfp
    injection hfp with hfp
    injection hfp with h1 h2
    have hple : p ≤ doc.length := by omega
    have hb := matchEndAt_bounds hple hq
    omega

theorem matchEndAt_eq_none_iff {r : Regex} {doc : List Char} {p : Nat} :
    matchEndAt r doc p = none ↔
      ∀ d, d ≤ doc.length - p →
        Regex.rmatch r ((doc.drop p).take d) = false := by
  rw [matchEndAt, List.findSome?_eq_none_iff]
  constructor
  · intro h d hd
    have := h d (by rw [List.mem_reverse, List.mem_range]; omega)
    by_cases hm : Regex.rmatch r ((doc.drop p).take d)
    · rw [if_pos hm] at this; cases this
    · exact Bool.eq_false_iff.mpr hm
  · intro h d hd
    rw [List.mem_reverse, List.mem_range] at hd
    rw [h d (by omega)]
    simp

theorem findFrom_eq_none_iff {r : Regex} {doc : List Char} {pos : Nat} :
    findFrom r doc pos = none ↔
      ∀ p, pos ≤ p → p ≤ doc.length → matchEndAt r doc p = none := by
  rw [findFrom, List.findSome?_eq_none_iff]
  constructor
  · intro h p h1 h2
    have := h p (by rw [List.mem_range'_1]; omega)
    match hq : matchEndAt r doc p with
    | none => rfl
    | some q => rw [hq] at this; cases this
  · intro h p hp
    rw [List.mem_range'_1] at hp
    rw [h p (by omega) (by omega)]
    rfl

/-- The `while (!cur.isNull())` loop of `ItemFilterRegExp::highlight`,
with explicit fuel.  `a` is the remembered cursor position of the last
iteration, `(i, j)` the current non-null find result (the cursor, whose
position is `j`, with a selection iff `i < j`), `acc` the selections so
far.  A cursor with no selection is advanced one character before
searching again; a search that does not advance the position is retried
one character further, and the loop breaks if the position still did not
advance.  Returns `none` when the fuel runs out. -/
def hlLoop (r : Regex) (doc : List Char) :
    Nat → Nat → Nat × Nat → List (Nat × Nat) → Option (List (Nat × Nat))
  | 0, _, _, _ => none
  | fuel + 1, a, (i, j), acc =>
    match findFrom r doc (if i < j then j else min (j + 1) doc.length) with
    | none => some (if i < j then acc ++ [(i, j)] else acc)
    | some (i', j') =>
      if a = j' then
        match findFrom r doc (min (j' + 1) doc.length) with
        | none => some (if i < j then acc ++ [(i, j)] else acc)
        | some (i'', j'') =>
          if a = j'' then some (if i < j then acc ++ [(i, j)] else acc)
          else hlLoop r doc fuel j'' (i'', j'') (if i < j then acc ++ [(i, j)] else acc)
      else hlLoop r doc fuel j' (i', j') (if i < j then acc ++ [(i, j)] else acc)

/-- `ItemFilterRegExp::highlight` on a document: the computed
extra-selection ranges, or `none` if the loop fuel is exhausted.  As in
the source, an invalid or empty pattern yields no selections. -/
def highlightSels (f : ItemFilterRegExp) (doc : List Char) :
    Option (List (Nat × Nat)) :=
  match parseSeq f.pattern with
  | none => some []
  | some r0 =>
    if f.pattern.isEmpty then some []
    else
      match findFrom (reFold f.caseInsensitive r0) (foldCase f.caseInsensitive doc) 0 with
      | none => some []
      | some (i, j) =>
        hlLoop (reFold f.caseInsensitive r0) (foldCase f.caseInsensitive doc)
          ((foldCase f.caseInsensitive doc).length + 2) j (i, j) []

theorem hlLoop_isSome (r : Regex) (doc : List Char) :
    ∀ (fuel : Nat), ∀ (a i j : Nat) (acc : List (Nat × Nat)),
      a = j → j ≤ doc.length → doc.length + 1 - j < fuel →
      (hlLoop r doc fuel a (i, j) acc).isSome = true := by
  intro fuel
  induction fuel with
  | zero =>
    intro a i j acc _ _ hf
    omega
  | succ fuel ih =>
    intro a i j acc ha hj hf
    rw [hlLoop]
    have hsp : j ≤ (if i < j then j else min (j + 1) doc.length) := by
      by_cases hij : i < j <;> simp [hij] <;> omega
    match h1 : findFrom r doc (if i < j then j else min (j + 1) doc.length) with
    | none => rfl
    | some (i', j') =>
      simp only []
      have hb1 := findFrom_bounds h1
      by_cases he1 : a = j'
      · rw [if_pos he1]
        match h2 : findFrom r doc (min (j' + 1) doc.length) with
        | none => rfl
        | some (i'', j'') =>
          simp only []
          have hb2 := findFrom_bounds h2
          by_cases he2 : a = j''
          · rw [if_pos he2]
            rfl
          · rw [if_neg he2]
            refine ih j'' i'' j'' _ rfl (by omega) ?_
            rcases Nat.lt_or_ge j' doc.length with hlt | hge
            · have : min (j' + 1) doc.length = j' + 1 := by omega
              omega
            · have hjl : j' = doc.length := by omega
              have : min (j' + 1) doc.length = doc.length := by omega
              omega
      · rw [if_neg he1]
        refine ih j' i' j' _ rfl (by omega) ?_
        omega

/-- C5: for every filter and document the highlight pass terminates:
the loop, given fuel `doc.length + 2`, never exhausts it — a
non-advancing search position is force-advanced by one character, and if
it still does not advance the pass ends early instead of looping. -/
theorem C5_highlight_terminates :
    ∀ (f : ItemFilterRegExp) (doc : List Char),
      (highlightSels f doc).isSome = true := by
  intro f doc
  rw [highlightSels]
  match hp : parseSeq f.pattern with
  | none => rfl
  | some r0 =>
    simp only []
    by_cases he : f.pattern.isEmpty
    · rw [if_pos he]
      rfl
    · rw [if_neg he]
      match h0 : findFrom (reFold f.caseInsensitive r0)
          (foldCase f.caseInsensitive doc) 0 with
      | none => rfl
      | some (i, j) =>
        have hb := findFrom_bounds h0
        exact hlLoop_isSome _ _ _ j i j [] rfl (by omega) (by omega)

theorem findFrom_eq_none_of_nomatch {r : Regex} {doc : List Char} {pos : Nat}
    (h : ∀ i j, i ≤ j → j ≤ doc.length →
      Regex.rmatch r ((doc.drop i).take (j - i)) = false) :
    findFrom r doc pos = none := by
  rw [findFrom_eq_none_iff]
  intro p h1 h2
  rw [matchEndAt_eq_none_iff]
  intro d hd
  have h3 := h p (p + d) (by omega) (by omega)
  have h4 : p + d - p = d := by omega
  rw [h4] at h3
  exact h3

/-- The end of the longest match of `r` starting at position `i` and
ending at or before `pos`, if any. -/
def matchEndBefore (r : Regex) (doc : List Char) (i pos : Nat) : Option Nat :=
  ((List.range (min pos doc.length - i + 1)).reverse).findSome?
    (fun d => if Regex.rmatch r ((doc.drop i).take d) then some (i + d) else none)

/-- Model of backward `QTextDocument::find`: the match with the greatest
start position that ends at or before `pos`, as a (start, end) pair. -/
def findBackFrom (r : Regex) (doc : List Char) (pos : Nat) : Option (Nat × Nat) :=
  ((List.range (min pos doc.length + 1)).reverse).findSome?
    (fun i => (matchEndBefore r doc i pos).map (fun j => (i, j)))

theorem findBackFrom_eq_none_of_nomatch {r : Regex} {doc : List Char} {pos : Nat}
    (h : ∀ i j, i ≤ j → j ≤ doc.length →
      Regex.rmatch r ((doc.drop i).take (j - i)) = false) :
    findBackFrom r doc pos = none := by
  rw [findBackFrom, List.findSome?_eq_none_iff]
  intro i hi
  rw [List.mem_reverse, List.mem_range] at hi
  have hnone : matchEndBefore r doc i pos = none := by
    rw [matchEndBefore, List.findSome?_eq_none_iff]
    intro d hd
    rw [List.mem_reverse, List.mem_range] at hd
    have h3 := h i (i + d) (by omega) (by omega)
    have h4 : i + d - i = d := by omega
    rw [h4] at h3
    rw [h3]
    simp
  rw [hnone]
  rfl

/-- `ItemFilterRegExp::search` on a document and cursor position: move
the cursor to the next (previous, if `backwards`) occurrence; when the
search from the current position fails, retry from the document start
(end, if backwards); keep the cursor when both searches fail (in
particular for an invalid pattern, whose finds all fail); do nothing
when `matchesAll()` holds. -/
def searchOp (f : ItemFilterRegExp) (doc : List Char) (pos : Nat)
    (backwards : Bool) : Nat :=
  if f.matchesAll then pos
  else
    match parseSeq f.pattern with
    | none => pos
    | some r0 =>
      match (if backwards then
               findBackFrom (reFold f.caseInsensitive r0)
                 (foldCase f.caseInsensitive doc) pos
             else
               findFrom (reFold f.caseInsensitive r0)
                 (foldCase f.caseInsensitive doc) pos) with
      | some m => m.2
      | none =>
        match (if backwards then
                 findBackFrom (reFold f.caseInsensitive r0)
                   (foldCase f.caseInsensitive doc)
                   (foldCase f.caseInsensitive doc).length
               else
                 findFrom (reFold f.caseInsensitive r0)
                   (foldCase f.caseInsensitive doc) 0) with
        | some m => m.2
        | none => pos

/-- C6: `search` advances the cursor to the next (previous, if
backwards) occurrence of the pattern; if no match is found from the
current position to the end (start) of the document it retries from the
document start (end); it leaves the cursor unchanged when no match
exists anywhere in the document; and it is a no-op whenever
`matchesAll()` holds. -/
theorem C6_search_behavior :
    (∀ (f : ItemFilterRegExp) (doc : List Char) (pos : Nat) (bw : Bool),
      f.matchesAll = true → searchOp f doc pos bw = pos) ∧
    (∀ (f : ItemFilterRegExp) (r0 : Regex) (doc : List Char) (pos : Nat)
        (m : Nat × Nat),
      parseSeq f.pattern = some r0 →
      findFrom (reFold f.caseInsensitive r0) (foldCase f.caseInsensitive doc)
        pos = some m →
      f.matchesAll = false →
      searchOp f doc pos false = m.2) ∧
    (∀ (f : ItemFilterRegExp) (r0 : Regex) (doc : List Char) (pos : Nat)
        (m : Nat × Nat),
      parseSeq f.pattern = some r0 →
      findFrom (reFold f.caseInsensitive r0) (foldCase f.caseInsensitive doc)
        pos = none →
      findFrom (reFold f.caseInsensitive r0) (foldCase f.caseInsensitive doc)
        0 = some m →
      f.matchesAll = false →
      searchOp f doc pos false = m.2) ∧
    (∀ (f : ItemFilterRegExp) (r0 : Regex) (doc : List Char) (pos : Nat)
        (m : Nat × Nat),
      parseSeq f.pattern = some r0 →
      findBackFrom (reFold f.caseInsensitive r0) (foldCase f.caseInsensitive doc)
        pos = some m →
      f.matchesAll = false →
      searchOp f doc pos true = m.2) ∧
    (∀ (f : ItemFilterRegExp) (r0 : Regex) (doc : List Char) (pos : Nat)
        (m : Nat × Nat),
      parseSeq f.pattern = some r0 →
      findBackFrom (reFold f.caseInsensitive r0) (foldCase f.caseInsensitive doc)
        pos = none →
      findBackFrom (reFold f.caseInsensitive r0) (foldCase f.caseInsensitive doc)
        (foldCase f.caseInsensitive doc).length = some m →
      f.matchesAll = false →
      searchOp f doc pos true = m.2) ∧
    (∀ (f : ItemFilterRegExp) (r0 : Regex) (doc : List Char) (pos : Nat)
        (bw : Bool),
      parseSeq f.pattern = some r0 →
      (∀ i j, i ≤ j → j ≤ (foldCase f.caseInsensitive doc).length →
        Regex.rmatch (reFold f.caseInsensitive r0)
          (((foldCase f.caseInsensitive doc).drop i).take (j - i)) = false) →
      searchOp f doc pos bw = pos) := by
  refine ⟨?_, ?_, ?_, ?_, ?_, ?_⟩
  · intro f doc pos bw h
    rw [searchOp, if_pos h]
  · intro f r0 doc pos m hp hf hma
    rw [searchOp, if_neg (by simp [hma]), hp]
    simp only [Bool.false_eq_true, if_false, hf]
  · intro f r0 doc pos m hp hf1 hf2 hma
    rw [searchOp, if_neg (by simp [hma]), hp]
    simp only [Bool.false_eq_true, if_false, hf1, hf2]
  · intro f r0 doc pos m hp hf hma
    rw [searchOp, if_neg (by simp [hma]), hp]
    simp only [if_true, hf]
  · intro f r0 doc pos m hp hf1 hf2 hma
    rw [searchOp, if_neg (by simp [hma]), hp]
    simp only [if_true, hf1, hf2]
  · intro f r0 doc pos bw hp hno
    by_cases hma : f.matchesAll
    · rw [searchOp, if_pos hma]
    · rw [searchOp, if_neg hma, hp]
      cases bw with
      | false =>
        simp only [Bool.false_eq_true, if_false,
          findFrom_eq_none_of_nomatch hno]
      | true =>
        simp only [if_true, findBackFrom_eq_none_of_nomatch hno]

theorem C6_search_behavior_witness :
    searchOp (compileFilter ['b'] ⟨false, false⟩) "abcb".data 0 false = 2 := by
  have hp : parseSeq (compileFilter ['b'] ⟨false, false⟩).pattern =
      some (tokensRegex [['b']]) := by
    rw [parseSeq_compile_nonregex]
    rw [show splitWS ['b'] = [['b']] by decide]
  exact C6_search_behavior.2.1 _ _ _ _ (1, 2) hp (by decide) (by decide)

/-- Events driving the filter scheduler: a text change (with the current
focus state of the line edit) or a focus loss, each with a time stamp. -/
inductive FEvent where
  | textChanged (t : Nat) (focused : Bool) : FEvent
  | focusOut (t : Nat) : FEvent
  deriving DecidableEq, Repr

/-- Time stamp of an event. -/
def FEvent.time : FEvent → Nat
  | .textChanged t _ => t
  | .focusOut t => t

/-- The debounce interval of `m_timerSearch` (200 ms, set in the
`FilterLineEdit` constructor). -/
def quietPeriod : Nat := 200

/-- One scheduler step over the state (pending single-shot deadline,
emission times so far): first fire the timer if its deadline has passed
(emitting `filterChanged` at the deadline), then handle the event.
`onTextChanged` restarts the timer while focused and emits immediately
otherwise; `focusOutEvent` stops a pending timer and calls
`onTextChanged`, which — now unfocused — emits immediately. -/
def schedStep : Option Nat × List Nat → FEvent → Option Nat × List Nat
  | (pending, out), ev =>
    match pending with
    | some d =>
      if d ≤ ev.time then
        match ev with
        | .textChanged t focused =>
          if focused then (some (t + quietPeriod), out ++ [d])
          else (none, out ++ [d] ++ [t])
        | .focusOut _ => (none, out ++ [d])
      else
        match ev with
        | .textChanged t focused =>
          if focused then (some (t + quietPeriod), out)
          else (some d, out ++ [t])
        | .focusOut t => (none, out ++ [t])
    | none =>
      match ev with
      | .textChanged t focused =>
        if focused then (some (t + quietPeriod), out)
        else (none, out ++ [t])
      | .focusOut _ => (none, out)

/-- Run the scheduler over a time-ordered event list, firing a timer
still pending after the last event at its deadline; the result is the
list of `filterChanged` emission times. -/
def runSched (evs : List FEvent) : List Nat :=
  match evs.foldl schedStep (none, []) with
  | (some d, out) => out ++ [d]
  | (none, out) => out

theorem schedStep_focused_pending {prev out t}
    (h : t < prev + quietPeriod) :
    schedStep (some (prev + quietPeriod), out) (.textChanged t true) =
      (some (t + quietPeriod), out) := by
  rw [schedStep]
  rw [if_neg (by rw [FEvent.time]; omega)]
  rfl

theorem sched_coalesce_aux :
    ∀ (ts : List Nat) (prev : Nat) (out : List Nat),
      List.Chain' (fun a b => a ≤ b ∧ b < a + quietPeriod) (prev :: ts) →
      (ts.map (fun t => FEvent.textChanged t true)).foldl schedStep
          (some (prev + quietPeriod), out) =
        (some ((prev :: ts).getLastD 0 + quietPeriod), out)
  | [], prev, out => by
    intro _
    rfl
  | t :: ts, prev, out => by
    intro hch
    rw [List.chain'_cons] at hch
    rw [List.map_cons, List.foldl_cons]
    rw [schedStep_focused_pending hch.1.2]
    rw [sched_coalesce_aux ts t out hch.2]
    rfl

/-- C7: with the 200-unit quiet period, focused text changes whose gaps
stay below the quiet period coalesce into exactly one `filterChanged`
notification, fired one quiet period after the last edit (edits at 0,
50, 100 yield exactly one notification at 300); a focus loss at 120
while the timer is pending cancels it and emits exactly one immediate
notification at 120 (and none at 300); an unfocused text change emits
immediately with no debounce. -/
theorem C7_debounce_scheduler :
    (∀ (t0 : Nat) (ts : List Nat),
      List.Chain' (fun a b => a ≤ b ∧ b < a + quietPeriod) (t0 :: ts) →
      runSched ((t0 :: ts).map (fun t => FEvent.textChanged t true)) =
        [(t0 :: ts).getLastD 0 + quietPeriod]) ∧
    runSched [.textChanged 0 true, .textChanged 50 true,
      .textChanged 100 true] = [300] ∧
    runSched [.textChanged 0 true, .textChanged 50 true,
      .textChanged 100 true, .focusOut 120] = [120] ∧
    (∀ t : Nat, runSched [.textChanged t false] = [t]) := by
  refine ⟨?_, by decide, by decide, fun t => rfl⟩
  intro t0 ts hch
  rw [runSched, List.map_cons, List.foldl_cons]
  rw [show schedStep (none, []) (.textChanged t0 true) =
    (some (t0 + quietPeriod), []) from rfl]
  rw [sched_coalesce_aux ts t0 [] hch]
  rfl

theorem C7_debounce_scheduler_witness :
    runSched ((0 :: [50, 100]).map (fun t => FEvent.textChanged t true)) =
      [(0 :: [50, 100]).getLastD 0 + quietPeriod] :=
  C7_debounce_scheduler.1 0 [50, 100] (by
    rw [List.chain'_cons, List.chain'_cons]
    exact ⟨⟨by decide, by decide⟩, ⟨by decide, by decide⟩, List.chain'_singleton _⟩)

/-- Model of `QStringList::removeDuplicates`: keep the first occurrence
of each entry. -/
def removeDuplicates (l : List String) : List String :=
  l.foldl (fun acc x => if x ∈ acc then acc else acc ++ [x]) []

theorem removeDuplicates_aux :
    ∀ (l acc : List String), acc.Nodup →
      (l.foldl (fun acc x => if x ∈ acc then acc else acc ++ [x]) acc).Nodup ∧
      (∀ x, x ∈ l.foldl (fun acc x => if x ∈ acc then acc else acc ++ [x]) acc ↔
        x ∈ acc ∨ x ∈ l) ∧
      ∃ l', l.foldl (fun acc x => if x ∈ acc then acc else acc ++ [x]) acc =
        acc ++ l' ∧ l'.Sublist l
  | [], acc => by
    intro hnd
    refine ⟨hnd, fun x => by simp, [], by simp, List.nil_sublist []⟩
  | x :: l, acc => by
    intro hnd
    rw [List.foldl_cons]
    by_cases hx : x ∈ acc
    · rw [if_pos hx]
      rcases removeDuplicates_aux l acc hnd with ⟨h1, h2, l', h3, h4⟩
      refine ⟨h1, fun y => ?_, l', h3, h4.trans (List.sublist_cons_self x l)⟩
      rw [h2 y, List.mem_cons]
      constructor
      · rintro (hy | hy)
        · exact .inl hy
        · exact .inr (.inr hy)
      · rintro (hy | rfl | hy)
        · exact .inl hy
        · exact .inl hx
        · exact .inr hy
    · rw [if_neg hx]
      have hnd2 : (acc ++ [x]).Nodup := by
        rw [List.nodup_append]
        exact ⟨hnd, List.nodup_singleton x, by simpa using hx⟩
      rcases removeDuplicates_aux l (acc ++ [x]) hnd2 with ⟨h1, h2, l', h3, h4⟩
      refine ⟨h1, fun y => ?_, x :: l', ?_, List.Sublist.cons₂ x h4⟩
      · rw [h2 y, List.mem_append, List.mem_singleton, List.mem_cons]
        constructor
        · rintro ((hy | rfl) | hy)
          · exact .inl hy
          · exact .inr (.inl rfl)
          · exact .inr (.inr hy)
        · rintro (hy | rfl | hy)
          · exact .inl (.inl hy)
          · exact .inl (.inr rfl)
          · exact .inr hy
      · rw [h3, List.append_assoc]
        rfl

theorem removeDuplicates_nodup (l : List String) :
    (removeDuplicates l).Nodup :=
  (removeDuplicates_aux l [] List.nodup_nil).1

theorem mem_removeDuplicates {l : List String} {x : String} :
    x ∈ removeDuplicates l ↔ x ∈ l := by
  rw [removeDuplicates]
  rw [(removeDuplicates_aux l [] List.nodup_nil).2.1 x]
  simp

theorem removeDuplicates_sublist (l : List String) :
    (removeDuplicates l).Sublist l := by
  rcases (removeDuplicates_aux l [] List.nodup_nil).2.2 with ⟨l', h1, h2⟩
  rw [removeDuplicates, h1]
  simpa using h2

/-- The two stores touched by the history migration: the legacy
`filter_history` entry of the application-wide settings (`AppConfig`),
absent when the key is missing, and the history list of the dedicated
filter settings file (`FilterHistory`). -/
structure HistoryStores where
  appConfigHistory : Option (List String)
  filterHistory : List String
  deriving DecidableEq, Repr

/-- `restoreOldFilterHistory`: when the legacy value is present and
nonempty, append its entries behind the current history, deduplicate
keeping first occurrences, and store the result; remove the legacy key
whenever it was present, empty or not; do nothing when it is absent. -/
def restoreOldFilterHistory (s : HistoryStores) : HistoryStores :=
  match s.appConfigHistory with
  | none => s
  | some oldHistory =>
    { appConfigHistory := none
      filterHistory :=
        if oldHistory.isEmpty then s.filterHistory
        else removeDuplicates (s.filterHistory ++ oldHistory) }

/-- C8: the legacy migration writes the stable first-occurrence-wins
deduplicated merge of the current entries with the legacy entries
(current first) and deletes the legacy key; it deletes the key even when
the legacy value is empty; it is a no-op when the key is absent; hence
running the migration twice equals running it once.  The merge result is
duplicate-free, order-preserving, and membership-preserving. -/
theorem C8_history_migration :
    (∀ (s : HistoryStores) (l : List String),
      s.appConfigHistory = some l → l ≠ [] →
      restoreOldFilterHistory s =
        ⟨none, removeDuplicates (s.filterHistory ++ l)⟩) ∧
    (∀ s : HistoryStores, s.appConfigHistory = some [] →
      restoreOldFilterHistory s = ⟨none, s.filterHistory⟩) ∧
    (∀ s : HistoryStores, s.appConfigHistory = none →
      restoreOldFilterHistory s = s) ∧
    (∀ s : HistoryStores,
      restoreOldFilterHistory (restoreOldFilterHistory s) =
        restoreOldFilterHistory s) ∧
    (∀ l : List String, (removeDuplicates l).Nodup ∧
      (removeDuplicates l).Sublist l ∧
      ∀ x, x ∈ removeDuplicates l ↔ x ∈ l) ∧
    restoreOldFilterHistory ⟨some ["x", "y"], ["y", "z"]⟩ =
      ⟨none, ["y", "z", "x"]⟩ := by
  have hsome : ∀ (s : HistoryStores) (l : List String),
      s.appConfigHistory = some l → l ≠ [] →
      restoreOldFilterHistory s =
        ⟨none, removeDuplicates (s.filterHistory ++ l)⟩ := by
    intro s l h hne
    rw [restoreOldFilterHistory.eq_def, h]
    simp only []
    rw [if_neg (by simpa [List.isEmpty_iff] using hne)]
  have hempty : ∀ s : HistoryStores, s.appConfigHistory = some [] →
      restoreOldFilterHistory s = ⟨none, s.filterHistory⟩ := by
    intro s h
    rw [restoreOldFilterHistory.eq_def, h]
    rfl
  have hnone : ∀ s : HistoryStores, s.appConfigHistory = none →
      restoreOldFilterHistory s = s := by
    intro s h
    rw [restoreOldFilterHistory.eq_def, h]
  refine ⟨hsome, hempty, hnone, ?_, ?_, by decide⟩
  · intro s
    match hl : s.appConfigHistory with
    | none => rw [hnone s hl]; rw [hnone s hl]
    | some l =>
      match l with
      | [] =>
        rw [hempty s hl]
        exact hnone _ rfl
      | a :: l' =>
        rw [hsome s (a :: l') hl (by simp)]
        exact hnone _ rfl
  · intro l
    exact ⟨removeDuplicates_nodup l, removeDuplicates_sublist l,
      fun x => mem_removeDuplicates⟩

theorem C8_history_migration_witness :
    restoreOldFilterHistory ⟨some ["x", "y"], ["y", "z"]⟩ =
      ⟨none, removeDuplicates (["y", "z"] ++ ["x", "y"])⟩ :=
  C8_history_migration.1 ⟨some ["x", "y"], ["y", "z"]⟩ ["x", "y"] rfl (by decide)
